import Mathlib

/-!
Shallow embedding of the decision core of a spot/perp price monitor:
rolling price windows, alert throttling, streak accounting, base-asset
normalization, reference-data deduplication and enrichment fallbacks.
Timestamps and prices are modelled as rationals, finite maps as
association lists (lookup returns the first matching binding, and an
update prepends a fresh binding, which matches dictionary lookup).
-/

namespace Monitor

/-! ## String helpers (models of Python `str.endswith`, slicing, `upper`) -/

/-- Boolean test that `q` is a suffix of `s`, on the underlying char lists. -/
def charSuffixEq (s q : List Char) : Bool :=
  if q.length ≤ s.length then s.drop (s.length - q.length) == q else false

/-- Model of Python `s.endswith(q)`. -/
def strEndsWith (s q : String) : Bool :=
  charSuffixEq s.data q.data

/-- Model of Python `s[:-n]` for `0 < n ≤ len s`: drop the last `n` characters. -/
def strDropRight (s : String) (n : ℕ) : String :=
  ⟨s.data.take (s.data.length - n)⟩

/-- Model of Python `s.upper()`. -/
def strToUpper (s : String) : String :=
  ⟨s.data.map Char.toUpper⟩

/-! ## `extract_base_asset` (src/utils.py) -/

/-- The quote-currency suffixes tried in order by `extract_base_asset`. -/
def quoteCurrencies : List String :=
  ["USDT", "BUSD", "FDUSD", "USDC", "BTC", "USD"]

/-- The `for quote in [...]: if base.endswith(quote): base = base[:-len(quote)]; break`
loop of `extract_base_asset`: strip at most one quote suffix, first match wins. -/
def stripQuoteSuffix (base : String) : List String → String
  | [] => base
  | q :: rest =>
    if strEndsWith base q then strDropRight base q.length
    else stripQuoteSuffix base rest

/-- The `if base.endswith("_PERP"): base = base[:-5]` step of `extract_base_asset`. -/
def stripPerpSuffix (s : String) : String :=
  if strEndsWith s "_PERP" then strDropRight s 5 else s

/-- `extract_base_asset` from src/utils.py: strip a trailing `_PERP`, then at
most one quote-currency suffix, then uppercase. -/
def extract_base_asset (sym : String) : String :=
  strToUpper (stripQuoteSuffix (stripPerpSuffix sym) quoteCurrencies)

/-! ## Alert throttle (`CacheManager.should_alert`, src/cache_manager.py) -/

/-- The `f"{base_asset}:{direction}"` throttle key. -/
def alertKey (base dir : String) : String :=
  base ++ ":" ++ dir

/-- `last_alert_key_time`: a dictionary from alert key to timestamp, modelled
as an association list where lookup returns the first binding. -/
abbrev ThrottleState := List (String × ℚ)

/-- `self.last_alert_key_time.get(alert_key, 0)`: lookup with default 0. -/
def lookupD (st : ThrottleState) (k : String) : ℚ :=
  (st.lookup k).getD 0

/-- `CacheManager.should_alert`: return `False` and leave the state unchanged
when `now_ts - last_ts < min_interval`; otherwise record `now_ts` under the
alert key and return `True`. -/
def should_alert (st : ThrottleState) (base dir : String) (now minI : ℚ) :
    Bool × ThrottleState :=
  if now - lookupD st (alertKey base dir) < minI then (false, st)
  else (true, (alertKey base dir, now) :: st)

/-- The throttle check as performed by `update_and_check_market` in
src/main.py: the key is built from the normalized base asset of the raw
instrument symbol. -/
def shouldAlertSym (st : ThrottleState) (sym dir : String) (now minI : ℚ) :
    Bool × ThrottleState :=
  should_alert st (extract_base_asset sym) dir now minI

/-- One throttle call per list element `(base, dir, now)`; collects the
timestamps of the calls for key `k` that returned `True`. -/
def admittedTimes (minI : ℚ) (st : ThrottleState) (k : String) :
    List (String × String × ℚ) → List ℚ
  | [] => []
  | (b, d, now) :: rest =>
    let r := should_alert st b d now minI
    if r.1 = true ∧ alertKey b d = k then now :: admittedTimes minI r.2 k rest
    else admittedTimes minI r.2 k rest

/-- `t0`-anchored admission gaps: each time in the list is at least `minI`
after the previous one (and the first at least `minI` after `t0`). -/
def gapOK (minI : ℚ) : ℚ → List ℚ → Prop
  | _, [] => True
  | t0, t :: rest => t0 + minI ≤ t ∧ gapOK minI t rest

/-! ## Alert streaks (`CacheManager.update_alert_streak`, src/cache_manager.py) -/

/-- The `AlertStreak` dataclass from src/models.py, with its field defaults. -/
structure AlertStreak where
  last_dir : Option String := none
  up_count : ℕ := 0
  down_count : ℕ := 0
  last_up_ts : ℚ := 0
  last_down_ts : ℚ := 0
deriving DecidableEq

/-- `alert_streak_state`: base asset to streak record; an absent entry is
interchangeable with a fresh `AlertStreak()`, so the dictionary is modelled as
a total map defaulting to `{}`. -/
abbrev StreakMap := String → AlertStreak

/-- The empty `alert_streak_state` dictionary. -/
def streakInit : StreakMap := fun _ => {}

/-- `CacheManager.update_alert_streak`: returns `(count, minutes_since_prev)`
and the updated map.  The `or 0.0` on the stored timestamp is the identity on
floats, hence omitted. -/
def update_alert_streak (rs : ℚ) (m : StreakMap) (base dir : String) (now : ℚ) :
    (ℕ × Option ℚ) × StreakMap :=
  let s := m base
  if dir = "UP" then
    let prev := s.last_up_ts
    let msp : Option ℚ := if prev = 0 then none else some ((now - prev) / 60)
    let newCount : ℕ :=
      if s.last_dir ≠ some "UP" ∨ prev = 0 ∨ rs < now - prev then 1
      else s.up_count + 1
    let s' : AlertStreak :=
      { s with up_count := newCount, last_up_ts := now, last_dir := some "UP" }
    ((newCount, msp), fun b => if b = base then s' else m b)
  else
    let prev := s.last_down_ts
    let msp : Option ℚ := if prev = 0 then none else some ((now - prev) / 60)
    let newCount : ℕ :=
      if s.last_dir ≠ some "DOWN" ∨ prev = 0 ∨ rs < now - prev then 1
      else s.down_count + 1
    let s' : AlertStreak :=
      { s with down_count := newCount, last_down_ts := now, last_dir := some "DOWN" }
    ((newCount, msp), fun b => if b = base then s' else m b)

/-- Fold a sequence of `(base, dir, now)` streak updates over the map. -/
def streakRun (rs : ℚ) : StreakMap → List (String × String × ℚ) → StreakMap
  | m, [] => m
  | m, (b, d, t) :: rest => streakRun rs (update_alert_streak rs m b d t).2 rest

/-- The counts returned by a sequence of streak updates, in call order. -/
def streakCounts (rs : ℚ) : StreakMap → List (String × String × ℚ) → List ℕ
  | _, [] => []
  | m, (b, d, t) :: rest =>
    (update_alert_streak rs m b d t).1.1 ::
      streakCounts rs (update_alert_streak rs m b d t).2 rest

/-- The stored timestamp for direction `dir` in a streak record. -/
def streakPrev (s : AlertStreak) (dir : String) : ℚ :=
  if dir = "UP" then s.last_up_ts else s.last_down_ts

/-- The stored counter for direction `dir` in a streak record. -/
def streakCount (s : AlertStreak) (dir : String) : ℕ :=
  if dir = "UP" then s.up_count else s.down_count

/-- The reset condition of `update_alert_streak` for direction `dir`. -/
def streakResetCond (rs : ℚ) (s : AlertStreak) (dir : String) (now : ℚ) : Prop :=
  s.last_dir ≠ some dir ∨ streakPrev s dir = 0 ∨ rs < now - streakPrev s dir

instance (rs : ℚ) (s : AlertStreak) (dir : String) (now : ℚ) :
    Decidable (streakResetCond rs s dir now) := by
  unfold streakResetCond; infer_instance

/-- Streak records arising in runs: whenever `last_dir` is set to a direction,
that direction's counter is at least 1. -/
def StreakInv (s : AlertStreak) : Prop :=
  (s.last_dir = some "UP" → 1 ≤ s.up_count) ∧
  (s.last_dir = some "DOWN" → 1 ≤ s.down_count)

instance (s : AlertStreak) : Decidable (StreakInv s) := by
  unfold StreakInv; infer_instance

/-! ## Price windows (`CacheManager.update_price` / `get_price_change`) -/

/-- One `(timestamp, price)` sample; the window keeps the oldest sample at the
head, like the left end of the deque. -/
abbrev Window := List (ℚ × ℚ)

/-- The `while history and (timestamp - history[0][0] > window_seconds):
history.popleft()` loop. -/
def dropOldLoop (w t : ℚ) : Window → Window
  | [] => []
  | s :: rest => if t - s.1 > w then dropOldLoop w t rest else s :: rest

/-- `CacheManager.update_price` on one symbol's window: append (the deque's
`maxlen=100` evicts the oldest sample first when full), then trim samples
older than `window_seconds` relative to the new timestamp. -/
def update_price (w : ℚ) (h : Window) (t p : ℚ) : Window :=
  dropOldLoop w t ((if h.length = 100 then h.tail else h) ++ [(t, p)])

/-- Fold a sequence of `(timestamp, price)` ingest calls over a window. -/
def ingestRun (w : ℚ) : Window → List (ℚ × ℚ) → Window
  | h, [] => h
  | h, (t, p) :: rest => ingestRun w (update_price w h t p) rest

/-- `CacheManager.get_price_change` on one symbol's window; `none` on the
outside models `self.price_history[market].get(symbol)` returning nothing. -/
def get_price_change (hq : Option Window) : Option (ℚ × ℚ × ℚ) :=
  match hq with
  | none => none
  | some h =>
    if h.length < 2 then none
    else
      match h.head?, h.getLast? with
      | some (_, basePrice), some (_, curPrice) =>
        if basePrice ≤ 0 then none
        else some ((curPrice - basePrice) / basePrice, basePrice, curPrice)
      | _, _ => none

/-- `history[0][1]`, the oldest sample's price (0 when empty). -/
def oldestPrice (h : Window) : ℚ :=
  (h.head?.getD (0, 0)).2

/-- `history[-1][1]`, the newest sample's price (0 when empty). -/
def newestPrice (h : Window) : ℚ :=
  (h.getLast?.getD (0, 0)).2

/-- The number of samples, counting a missing window as 0. -/
def windowLength (hq : Option Window) : ℕ :=
  (hq.getD []).length

/-! ## Reference-data dedup (`AsyncCoinGeckoClient.load_marketcaps`) -/

/-- One CoinGecko row: `(symbol, market_cap, fully_diluted_valuation)`, the
numeric fields optional. -/
abbrev CgEntry := String × Option ℚ × Option ℚ

/-- Python `(mc or 0)`: a missing market cap counts as 0 in comparisons
(`0.0` is falsy, so the substitution is value-preserving). -/
def mcKey (mc : Option ℚ) : ℚ :=
  mc.getD 0

/-- One row of the refresh loop: `if symbol not in cache or (mc or 0) >
(cache[symbol]["mc"] or 0): cache[symbol] = {...}`. -/
def cgStep (cache : List CgEntry) (e : CgEntry) : List CgEntry :=
  match cache.lookup e.1 with
  | none => e :: cache
  | some old => if mcKey e.2.1 > mcKey old.1 then e :: cache else cache

/-- `AsyncCoinGeckoClient.load_marketcaps` restricted to its dedup logic:
fold the fetched rows into the cache. -/
def load_marketcaps (entries : List CgEntry) : List CgEntry :=
  entries.foldl cgStep []

/-- The `(mc, fdv)` payloads of the rows for one symbol, in fetch order. -/
def entriesFor (sym : String) (entries : List CgEntry) : List (Option ℚ × Option ℚ) :=
  (entries.filter (fun e => e.1 = sym)).map (fun e => e.2)

/-- Modelled from the spec: "the entry with the larger market_cap wins
(deterministic tie-break: first-seen wins on exact equality)", applied row by
row to the payloads of one symbol. -/
def specPick : Option (Option ℚ × Option ℚ) →
    List (Option ℚ × Option ℚ) → Option (Option ℚ × Option ℚ)
  | acc, [] => acc
  | none, v :: rest => specPick (some v) rest
  | some b, v :: rest =>
    specPick (if mcKey v.1 > mcKey b.1 then some v else some b) rest

/-! ## Open-interest lookup (`AsyncBinanceClient.fetch_open_interest_stats`) -/

/-- The `(oi_str, oi_change_str, oi_value_usd)` result triple. -/
abbrev OIResult := String × String × Option ℚ

/-- `fetch_open_interest_stats`: attempt `k` of the oracle models one
execution of the `try` block (either its value or a raised exception); on
failure with retries left, retry against the next attempt; with none left,
return the explicit unavailable markers.  The result is wrapped in `Except`
to record that no exception escapes; the second component counts attempts. -/
def fetch_open_interest_stats (oracle : ℕ → Except Unit OIResult) :
    ℕ → ℕ → Except Unit OIResult × ℕ
  | k, 0 =>
    match oracle k with
    | .ok v => (.ok v, 1)
    | .error _ => (.ok ("N/A", "N/A", none), 1)
  | k, r + 1 =>
    match oracle k with
    | .ok v => (.ok v, 1)
    | .error _ =>
      let res := fetch_open_interest_stats oracle (k + 1) r
      (res.1, res.2 + 1)

/-- One cycle's OI lookups: one independent lookup per symbol, each entered
with `retry=True` (one retry budget). -/
def fetchOIBatch (oracles : String → ℕ → Except Unit OIResult)
    (syms : List String) : List (Except Unit OIResult) :=
  syms.map (fun s => (fetch_open_interest_stats (oracles s) 0 1).1)

/-! ## OI / market-cap ratio (`AlertInfo.oi_mc_ratio_str`, src/models.py) -/

/-- Format a rational to two decimals, as `f"{x:.2f}%"` does for the
nonnegative values this field carries. -/
def fmt2 (x : ℚ) : String :=
  let r : ℤ := round (x * 100)
  let ip := r / 100
  let fp := (r % 100).natAbs
  toString ip ++ "." ++ (if fp < 10 then "0" else "") ++ toString fp ++ "%"

/-- `AlertInfo.oi_mc_ratio_str`: the ratio percentage when `oi_value_usd` and
`mc_raw` are both present and both strictly positive, else `"N/A"`. -/
def oi_mc_ratio_str (oi mc : Option ℚ) : String :=
  match oi, mc with
  | some o, some m => if 0 < o ∧ 0 < m then fmt2 (o / m * 100) else "N/A"
  | _, _ => "N/A"

end Monitor

namespace Monitor

/-! ## Association-list lookup lemmas -/

theorem lookup_cons_self {β : Type} (k : String) (v : β) (st : List (String × β)) :
    ((k, v) :: st).lookup k = some v := by
  simp [List.lookup]

theorem lookup_cons_ne {β : Type} {k k' : String} (v : β) (st : List (String × β))
    (h : k ≠ k') : ((k, v) :: st).lookup k' = st.lookup k' := by
  have hb : (k' == k) = false := beq_eq_false_iff_ne.mpr (Ne.symm h)
  simp [List.lookup, hb]

/-! ## Throttle lemmas -/

theorem should_alert_true_iff (st : ThrottleState) (b d : String) (now minI : ℚ) :
    (should_alert st b d now minI).1 = true ↔
      minI ≤ now - lookupD st (alertKey b d) := by
  unfold should_alert
  by_cases h : now - lookupD st (alertKey b d) < minI
  · rw [if_pos h]
    constructor
    · intro hfalse
      exact absurd hfalse (by simp)
    · intro hle
      exact absurd h (not_lt.mpr hle)
  · rw [if_neg h]
    exact ⟨fun _ => not_lt.mp h, fun _ => rfl⟩

theorem should_alert_true_state {st : ThrottleState} {b d : String} {now minI : ℚ}
    (h : (should_alert st b d now minI).1 = true) :
    (should_alert st b d now minI).2 = (alertKey b d, now) :: st := by
  unfold should_alert at h ⊢
  by_cases hc : now - lookupD st (alertKey b d) < minI
  · rw [if_pos hc] at h
    exact absurd h (by simp)
  · rw [if_neg hc]

theorem should_alert_false_state {st : ThrottleState} {b d : String} {now minI : ℚ}
    (h : (should_alert st b d now minI).1 = false) :
    (should_alert st b d now minI).2 = st := by
  unfold should_alert at h ⊢
  by_cases hc : now - lookupD st (alertKey b d) < minI
  · rw [if_pos hc]
  · rw [if_neg hc] at h
    exact absurd h (by simp)

theorem should_alert_false_of_lt (st : ThrottleState) (b d : String)
    (now minI : ℚ) (h : now - lookupD st (alertKey b d) < minI) :
    (should_alert st b d now minI).1 = false := by
  unfold should_alert
  rw [if_pos h]

theorem admittedTimes_gapOK (minI : ℚ) (k : String) :
    ∀ (calls : List (String × String × ℚ)) (st : ThrottleState),
      gapOK minI (lookupD st k) (admittedTimes minI st k calls) := by
  intro calls
  induction calls with
  | nil => intro st; simp [admittedTimes, gapOK]
  | cons c rest ih =>
    intro st
    obtain ⟨b, d, now⟩ := c
    show gapOK minI (lookupD st k) (admittedTimes minI st k ((b, d, now) :: rest))
    rw [admittedTimes]
    by_cases hcond : (should_alert st b d now minI).1 = true ∧ alertKey b d = k
    · have hst : (should_alert st b d now minI).2 = (alertKey b d, now) :: st :=
        should_alert_true_state hcond.1
      have hge : minI ≤ now - lookupD st (alertKey b d) :=
        (should_alert_true_iff st b d now minI).mp hcond.1
      have hlk : lookupD (should_alert st b d now minI).2 k = now := by
        rw [hst, ← hcond.2, lookupD, lookup_cons_self]; rfl
      rw [if_pos hcond]
      refine ⟨?_, ?_⟩
      · rw [← hcond.2]; linarith
      · have := ih (should_alert st b d now minI).2
        rwa [hlk] at this
    · rw [if_neg hcond]
      have hlk : lookupD (should_alert st b d now minI).2 k = lookupD st k := by
        rcases Bool.eq_false_or_eq_true (should_alert st b d now minI).1 with ht | hf
        · have hkey : alertKey b d ≠ k := by
            intro hk
            exact hcond ⟨ht, hk⟩
          rw [should_alert_true_state ht, lookupD, lookup_cons_ne _ _ hkey]; rfl
        · rw [should_alert_false_state hf]
      have := ih (should_alert st b d now minI).2
      rwa [hlk] at this

theorem gapOK_pairwise (minI : ℚ) (h0 : 0 ≤ minI) :
    ∀ (l : List ℚ) (t0 : ℚ), gapOK minI t0 l →
      l.Pairwise (fun a c => a + minI ≤ c) ∧ ∀ x ∈ l, t0 + minI ≤ x := by
  intro l
  induction l with
  | nil => intro t0 _; simp
  | cons t rest ih =>
    intro t0 hg
    obtain ⟨h1, h2⟩ := hg
    obtain ⟨hpw, hbd⟩ := ih t h2
    refine ⟨List.Pairwise.cons (fun x hx => ?_) hpw, fun x hx => ?_⟩
    · have := hbd x hx; linarith
    · rcases List.mem_cons.mp hx with rfl | hx'
      · exact h1
      · have := hbd x hx'; linarith

/-- C2: `should_alert` admits and records `now` exactly when
`now - last_alert_time ≥ min_interval`; a rejected call leaves the state
untouched; consequently, for any call sequence with `0 ≤ min_interval`, the
admitted timestamps of any one key are pairwise at least `min_interval`
apart. -/
theorem should_alert_throttle_correct (st : ThrottleState) (b d : String)
    (now minI : ℚ) (calls : List (String × String × ℚ)) (k : String) :
    ((should_alert st b d now minI).1 = true ↔
      minI ≤ now - lookupD st (alertKey b d)) ∧
    ((should_alert st b d now minI).1 = true →
      lookupD (should_alert st b d now minI).2 (alertKey b d) = now ∧
      ∀ k', k' ≠ alertKey b d →
        (should_alert st b d now minI).2.lookup k' = st.lookup k') ∧
    ((should_alert st b d now minI).1 = false →
      (should_alert st b d now minI).2 = st) ∧
    (0 ≤ minI →
      (admittedTimes minI st k calls).Pairwise (fun t1 t2 => t1 + minI ≤ t2)) := by
  refine ⟨should_alert_true_iff st b d now minI, fun ht => ?_, fun hf => ?_, fun h0 => ?_⟩
  · rw [should_alert_true_state ht]
    refine ⟨by rw [lookupD, lookup_cons_self]; rfl, fun k' hk' => ?_⟩
    exact lookup_cons_ne _ _ (fun he => hk' he.symm)
  · exact should_alert_false_state hf
  · exact (gapOK_pairwise minI h0 _ _ (admittedTimes_gapOK minI k calls st)).1

/-- C2 witness: from the empty state with `min_interval = 3`, a call at
`now = 10` is admitted and records 10; the admitted timestamps of the
sequence [10, 11, 14] for key `"BTC:UP"` are 10 and 14, which are 3 apart. -/
theorem should_alert_throttle_correct_witness :
    lookupD (should_alert [] "BTC" "UP" 10 3).2 (alertKey "BTC" "UP") = 10 ∧
    (admittedTimes 3 [] "BTC:UP"
      [("BTC", "UP", 10), ("BTC", "UP", 11), ("BTC", "UP", 14)]).Pairwise
      (fun t1 t2 => t1 + 3 ≤ t2) := by
  have h := should_alert_throttle_correct [] "BTC" "UP" 10 3
    [("BTC", "UP", 10), ("BTC", "UP", 11), ("BTC", "UP", 14)] "BTC:UP"
  exact ⟨(h.2.1 (by with_unfolding_all decide)).1, h.2.2.2 (by with_unfolding_all decide)⟩

/-- C9: for a key with no stored entry, the absent binding defaults to
timestamp 0, so the first-ever call is admitted exactly when `now ≥
min_interval`. -/
theorem should_alert_first_event (st : ThrottleState) (b d : String)
    (now minI : ℚ) (h : st.lookup (alertKey b d) = none) :
    (should_alert st b d now minI).1 = true ↔ minI ≤ now := by
  have h0 : lookupD st (alertKey b d) = 0 := by rw [lookupD, h]; rfl
  rw [should_alert_true_iff, h0, sub_zero]

/-- C9 witness: on the empty state with `min_interval = 3`, a first-ever
event at `now = 2` is rejected and one at `now = 3` is admitted. -/
theorem should_alert_first_event_witness :
    ¬ (should_alert [] "BTC" "UP" 2 3).1 = true ∧
    (should_alert [] "BTC" "UP" 3 3).1 = true := by
  constructor
  · intro h
    have := (should_alert_first_event [] "BTC" "UP" 2 3 rfl).mp h
    revert this
    with_unfolding_all decide
  · exact (should_alert_first_event [] "BTC" "UP" 3 3 rfl).mpr (by with_unfolding_all decide)

/-- C5: the throttle key depends on the instrument symbol only through
`extract_base_asset`: after an admitted alert for `s1` at time `t`, any
event for a symbol `s2` with the same base asset and the same direction at a
time `t'` with `t' - t < min_interval` is rejected, and the call behaves
exactly as a second event for `s1` would. -/
theorem throttle_shared_by_base_asset (st : ThrottleState) (s1 s2 dir : String)
    (t t' minI : ℚ) (hb : extract_base_asset s1 = extract_base_asset s2)
    (hadm : (shouldAlertSym st s1 dir t minI).1 = true)
    (hlt : t' - t < minI) :
    (shouldAlertSym (shouldAlertSym st s1 dir t minI).2 s2 dir t' minI).1 = false ∧
    shouldAlertSym (shouldAlertSym st s1 dir t minI).2 s2 dir t' minI =
      shouldAlertSym (shouldAlertSym st s1 dir t minI).2 s1 dir t' minI := by
  have hsame : shouldAlertSym (shouldAlertSym st s1 dir t minI).2 s2 dir t' minI =
      shouldAlertSym (shouldAlertSym st s1 dir t minI).2 s1 dir t' minI := by
    unfold shouldAlertSym
    rw [hb]
  refine ⟨?_, hsame⟩
  rw [hsame]
  have hst : (shouldAlertSym st s1 dir t minI).2 =
      (alertKey (extract_base_asset s1) dir, t) :: st :=
    should_alert_true_state hadm
  have hl : lookupD (shouldAlertSym st s1 dir t minI).2
      (alertKey (extract_base_asset s1) dir) = t := by
    rw [hst, lookupD, lookup_cons_self]; rfl
  exact should_alert_false_of_lt _ (extract_base_asset s1) dir t' minI (by rw [hl]; exact hlt)

/-- C5 witness: `"BTCUSDT"` and `"BTCUSD_PERP"` normalize to the same base,
so after an admitted `"BTCUSDT"` UP alert at `t = 1000` with
`min_interval = 900`, an UP event for `"BTCUSD_PERP"` at `t' = 1500` is
rejected. -/
theorem throttle_shared_by_base_asset_witness :
    (shouldAlertSym (shouldAlertSym [] "BTCUSDT" "UP" 1000 900).2
      "BTCUSD_PERP" "UP" 1500 900).1 = false := by
  exact (throttle_shared_by_base_asset [] "BTCUSDT" "BTCUSD_PERP" "UP" 1000 1500 900
    (by decide) (by with_unfolding_all decide) (by with_unfolding_all decide)).1

/-! ## Streak lemmas -/

theorem one_le_ite_succ (c : Prop) [Decidable c] (n : ℕ) :
    1 ≤ if c then 1 else n + 1 := by
  split
  · exact le_refl 1
  · exact Nat.succ_le_succ (Nat.zero_le n)

theorem streakInit_inv (b : String) : StreakInv (streakInit b) := by
  constructor
  · intro h
    simp [streakInit] at h
  · intro h
    simp [streakInit] at h

theorem update_alert_streak_inv (rs : ℚ) (m : StreakMap) (base dir : String)
    (now : ℚ) (b : String) (h : StreakInv (m b)) :
    StreakInv ((update_alert_streak rs m base dir now).2 b) := by
  by_cases hb : b = base
  · subst hb
    unfold update_alert_streak StreakInv
    by_cases hdir : dir = "UP"
    · rw [if_pos hdir]
      simp only [if_pos rfl]
      constructor
      · intro _
        exact one_le_ite_succ _ _
      · intro hcontra
        simp at hcontra
    · rw [if_neg hdir]
      simp only [if_pos rfl]
      constructor
      · intro hcontra
        simp at hcontra
      · intro _
        exact one_le_ite_succ _ _
  · have hmap : (update_alert_streak rs m base dir now).2 b = m b := by
      unfold update_alert_streak
      by_cases hdir : dir = "UP"
      · rw [if_pos hdir]
        simp only [if_neg hb]
      · rw [if_neg hdir]
        simp only [if_neg hb]
    rw [hmap]
    exact h

theorem streakRun_inv (rs : ℚ) :
    ∀ (calls : List (String × String × ℚ)) (m : StreakMap),
      (∀ b, StreakInv (m b)) → ∀ b, StreakInv (streakRun rs m calls b) := by
  intro calls
  induction calls with
  | nil => intro m hm b; exact hm b
  | cons c rest ih =>
    intro m hm b
    obtain ⟨cb, cd, ct⟩ := c
    exact ih _ (fun b' => update_alert_streak_inv rs m cb cd ct b' (hm b')) b

/-- C1 counterexample: in the claim's own scenario the first UP event
happens at `t = 0`, so it stores `last_up_ts = 0.0`, which is exactly the
"never set" sentinel of the reset test; the second UP at `t = 300` therefore
resets to 1 instead of incrementing to 2, and the code returns counts
`[1, 1, 1, 1]`, not `[1, 2, 1, 1]`. -/
theorem update_alert_streak_t0_counterexample :
    streakCounts 1800 streakInit
      [("BTC", "UP", 0), ("BTC", "UP", 300), ("BTC", "DOWN", 400), ("BTC", "UP", 500)]
      = [1, 1, 1, 1] ∧
    ¬ streakCounts 1800 streakInit
      [("BTC", "UP", 0), ("BTC", "UP", 300), ("BTC", "DOWN", 400), ("BTC", "UP", 500)]
      = [1, 2, 1, 1] := by
  constructor
  · with_unfolding_all decide
  · with_unfolding_all decide

/-- C1 (amended): the streak updater returns 1 exactly when the reset
condition holds (stored direction differs, sentinel timestamp 0, or gap over
`alert_reset_seconds`), otherwise the stored count plus one; afterwards the
stored direction is `dir` and `dir`'s timestamp is `now`.  The runs-from-empty
invariant justifies the hypothesis, and the claim's scenario holds once it is
started at a nonzero clock (UP@10, UP@310, DOWN@410, UP@510 gives 1, 2, 1, 1,
the final UP resetting on the direction flip despite its 200 s UP-to-UP
gap). -/
theorem update_alert_streak_correct (rs : ℚ) (m : StreakMap) (base dir : String)
    (now : ℚ) (hInv : StreakInv (m base)) (hd : dir = "UP" ∨ dir = "DOWN") :
    ((update_alert_streak rs m base dir now).1.1 = 1 ↔
      streakResetCond rs (m base) dir now) ∧
    (¬ streakResetCond rs (m base) dir now →
      (update_alert_streak rs m base dir now).1.1 = streakCount (m base) dir + 1) ∧
    ((update_alert_streak rs m base dir now).2 base).last_dir = some dir ∧
    streakPrev ((update_alert_streak rs m base dir now).2 base) dir = now ∧
    (∀ calls b, StreakInv (streakRun rs streakInit calls b)) ∧
    streakCounts 1800 streakInit
      [("BTC", "UP", 10), ("BTC", "UP", 310), ("BTC", "DOWN", 410), ("BTC", "UP", 510)]
      = [1, 2, 1, 1] := by
  have hrun : ∀ calls b, StreakInv (streakRun rs streakInit calls b) :=
    fun calls b => streakRun_inv rs calls streakInit streakInit_inv b
  have hscen : streakCounts 1800 streakInit
      [("BTC", "UP", 10), ("BTC", "UP", 310), ("BTC", "DOWN", 410), ("BTC", "UP", 510)]
      = [1, 2, 1, 1] := by with_unfolding_all decide
  rcases hd with hdir | hdir
  · subst hdir
    have hcount : (update_alert_streak rs m base "UP" now).1.1 =
        if streakResetCond rs (m base) "UP" now then 1 else (m base).up_count + 1 := rfl
    have hmap : (update_alert_streak rs m base "UP" now).2 base =
        { last_dir := some "UP",
          up_count := (update_alert_streak rs m base "UP" now).1.1,
          down_count := (m base).down_count,
          last_up_ts := now,
          last_down_ts := (m base).last_down_ts } := if_pos rfl
    refine ⟨?_, ?_, ?_, ?_, hrun, hscen⟩
    · rw [hcount]
      by_cases hr : streakResetCond rs (m base) "UP" now
      · rw [if_pos hr]
        exact ⟨fun _ => hr, fun _ => rfl⟩
      · rw [if_neg hr]
        have hup : (m base).last_dir = some "UP" := by
          by_contra hne
          exact hr (Or.inl hne)
        have hcnt : 1 ≤ (m base).up_count := hInv.1 hup
        exact ⟨fun h1 => absurd h1 (by omega), fun h => absurd h hr⟩
    · intro hr
      rw [hcount, if_neg hr]
      rfl
    · rw [hmap]
    · rw [streakPrev, if_pos rfl, hmap]
  · subst hdir
    have hcount : (update_alert_streak rs m base "DOWN" now).1.1 =
        if streakResetCond rs (m base) "DOWN" now then 1 else (m base).down_count + 1 := rfl
    have hmap : (update_alert_streak rs m base "DOWN" now).2 base =
        { last_dir := some "DOWN",
          up_count := (m base).up_count,
          down_count := (update_alert_streak rs m base "DOWN" now).1.1,
          last_up_ts := (m base).last_up_ts,
          last_down_ts := now } := if_pos rfl
    refine ⟨?_, ?_, ?_, ?_, hrun, hscen⟩
    · rw [hcount]
      by_cases hr : streakResetCond rs (m base) "DOWN" now
      · rw [if_pos hr]
        exact ⟨fun _ => hr, fun _ => rfl⟩
      · rw [if_neg hr]
        have hdn : (m base).last_dir = some "DOWN" := by
          by_contra hne
          exact hr (Or.inl hne)
        have hcnt : 1 ≤ (m base).down_count := hInv.2 hdn
        exact ⟨fun h1 => absurd h1 (by omega), fun h => absurd h hr⟩
    · intro hr
      rw [hcount, if_neg hr]
      rfl
    · rw [hmap]
    · rw [streakPrev, if_neg (by decide : ¬ ("DOWN" : String) = "UP"), hmap]

/-- C1 witness: at the fresh state the reset condition holds for BTC/UP
(direction never set), so the first call returns count 1 and stores the
direction and timestamp. -/
theorem update_alert_streak_correct_witness :
    (update_alert_streak 1800 streakInit "BTC" "UP" 10).1.1 = 1 ∧
    ((update_alert_streak 1800 streakInit "BTC" "UP" 10).2 "BTC").last_dir = some "UP" := by
  have h := update_alert_streak_correct 1800 streakInit "BTC" "UP" 10
    (streakInit_inv "BTC") (Or.inl rfl)
  exact ⟨h.1.mpr (Or.inl (by decide)), h.2.2.1⟩

/-! ## Window lemmas -/

theorem dropOldLoop_sub (w t : ℚ) :
    ∀ (l : Window) (s : ℚ × ℚ), s ∈ dropOldLoop w t l → s ∈ l := by
  intro l
  induction l with
  | nil => intro s hs; exact hs
  | cons a rest ih =>
    intro s hs
    rw [dropOldLoop] at hs
    split at hs
    · exact List.mem_cons_of_mem a (ih s hs)
    · exact hs

theorem dropOldLoop_pairwise (w t : ℚ) {R : ℚ × ℚ → ℚ × ℚ → Prop} :
    ∀ (l : Window), l.Pairwise R → (dropOldLoop w t l).Pairwise R := by
  intro l
  induction l with
  | nil => intro h; exact h
  | cons a rest ih =>
    intro h
    rw [dropOldLoop]
    split
    · exact ih (List.pairwise_cons.mp h).2
    · exact h

theorem dropOldLoop_low (w t : ℚ) :
    ∀ (l : Window), l.Pairwise (fun a b => a.1 ≤ b.1) →
      ∀ s ∈ dropOldLoop w t l, t - w ≤ s.1 := by
  intro l
  induction l with
  | nil => intro _ s hs; exact absurd hs (List.not_mem_nil s)
  | cons a rest ih =>
    intro hp s hs
    rw [dropOldLoop] at hs
    split at hs
    · exact ih (List.pairwise_cons.mp hp).2 s hs
    · rename_i hkeep
      have ha : t - w ≤ a.1 := by
        have hle : t - a.1 ≤ w := not_lt.mp hkeep
        linarith
      rcases List.mem_cons.mp hs with rfl | hs'
      · exact ha
      · exact le_trans ha ((List.pairwise_cons.mp hp).1 s hs')

theorem dropOldLoop_length (w t : ℚ) :
    ∀ (l : Window), (dropOldLoop w t l).length ≤ l.length := by
  intro l
  induction l with
  | nil => exact le_refl 0
  | cons a rest ih =>
    rw [dropOldLoop]
    split
    · exact le_trans ih (Nat.le_succ _)
    · exact le_refl _

theorem update_price_good (w : ℚ) (h : Window) (t0 t p : ℚ)
    (hp : h.Pairwise (fun a b => a.1 ≤ b.1)) (hub : ∀ s ∈ h, s.1 ≤ t0)
    (hlen : h.length ≤ 100) (ht : t0 ≤ t) :
    (update_price w h t p).Pairwise (fun a b => a.1 ≤ b.1) ∧
    (∀ s ∈ update_price w h t p, t - w ≤ s.1 ∧ s.1 ≤ t) ∧
    (update_price w h t p).length ≤ 100 := by
  set h1 : Window := if h.length = 100 then h.tail else h with hh1
  have hsub1 : List.Sublist h1 h := by
    rw [hh1]
    split
    · exact List.tail_sublist h
    · exact List.Sublist.refl h
  have hp1 : h1.Pairwise (fun a b => a.1 ≤ b.1) := hp.sublist hsub1
  have hub1 : ∀ s ∈ h1, s.1 ≤ t0 := fun s hs => hub s (hsub1.subset hs)
  have hlen1 : h1.length + 1 ≤ 100 := by
    rw [hh1]
    split
    · rename_i h100
      cases h with
      | nil => simp at h100
      | cons a rest => simp only [List.tail_cons]; simp at h100 ⊢; omega
    · rename_i h100
      omega
  have hp2 : (h1 ++ [(t, p)]).Pairwise (fun a b => a.1 ≤ b.1) := by
    rw [List.pairwise_append]
    refine ⟨hp1, List.pairwise_singleton _ _, fun a ha b hb => ?_⟩
    rcases List.mem_singleton.mp hb with rfl
    exact le_trans (hub1 a ha) ht
  refine ⟨dropOldLoop_pairwise w t _ hp2, fun s hs => ?_, ?_⟩
  · refine ⟨dropOldLoop_low w t _ hp2 s hs, ?_⟩
    rcases List.mem_append.mp (dropOldLoop_sub w t _ s hs) with hs1 | hs2
    · exact le_trans (hub1 s hs1) ht
    · rcases List.mem_singleton.mp hs2 with rfl
      exact le_refl t
  · calc (update_price w h t p).length ≤ (h1 ++ [(t, p)]).length :=
          dropOldLoop_length w t _
      _ = h1.length + 1 := by rw [List.length_append, List.length_singleton]
      _ ≤ 100 := hlen1

theorem ingestRun_good (w : ℚ) :
    ∀ (calls : List (ℚ × ℚ)) (h : Window) (t0 : ℚ),
      calls.Pairwise (fun a b => a.1 ≤ b.1) → (∀ c ∈ calls, t0 ≤ c.1) →
      h.Pairwise (fun a b => a.1 ≤ b.1) → (∀ s ∈ h, t0 - w ≤ s.1 ∧ s.1 ≤ t0) →
      h.length ≤ 100 →
      ∃ t', (ingestRun w h calls).Pairwise (fun a b => a.1 ≤ b.1) ∧
        (∀ s ∈ ingestRun w h calls, t' - w ≤ s.1 ∧ s.1 ≤ t') ∧
        (ingestRun w h calls).length ≤ 100 := by
  intro calls
  induction calls with
  | nil =>
    intro h t0 _ _ hp hb hlen
    exact ⟨t0, hp, hb, hlen⟩
  | cons c rest ih =>
    intro h t0 hmono hcall hp hb hlen
    obtain ⟨t, p⟩ := c
    have ht0 : t0 ≤ t := hcall (t, p) (List.mem_cons_self _ _)
    obtain ⟨hp', hb', hlen'⟩ :=
      update_price_good w h t0 t p hp (fun s hs => (hb s hs).2) hlen ht0
    have hrest : ∀ c' ∈ rest, t ≤ c'.1 :=
      fun c' hc' => (List.pairwise_cons.mp hmono).1 c' hc'
    exact ih (update_price w h t p) t (List.pairwise_cons.mp hmono).2 hrest hp' hb' hlen'

/-- C3: starting from an empty window, any ingest sequence with
non-decreasing timestamps leaves, after each call, a window in which no two
samples' timestamps differ by more than `window_seconds` and whose length
never exceeds the capacity cap of 100. -/
theorem update_price_window_invariant (w : ℚ) (calls : List (ℚ × ℚ)) (n : ℕ)
    (hmono : calls.Pairwise (fun a b => a.1 ≤ b.1)) :
    (∀ s1 ∈ ingestRun w [] (calls.take n), ∀ s2 ∈ ingestRun w [] (calls.take n),
      s1.1 - s2.1 ≤ w) ∧
    (ingestRun w [] (calls.take n)).length ≤ 100 := by
  have hmono' : (calls.take n).Pairwise (fun a b => a.1 ≤ b.1) :=
    hmono.sublist (List.take_sublist n calls)
  rcases hcs : calls.take n with _ | ⟨c, rest⟩
  · constructor
    · intro s1 hs1
      exact absurd hs1 (List.not_mem_nil s1)
    · exact Nat.zero_le 100
  · rw [hcs] at hmono'
    have hcall : ∀ c' ∈ c :: rest, c.1 ≤ c'.1 := by
      intro c' hc'
      rcases List.mem_cons.mp hc' with rfl | hmem
      · exact le_refl _
      · exact (List.pairwise_cons.mp hmono').1 c' hmem
    obtain ⟨t', hpw, hbd, hlen⟩ := ingestRun_good w (c :: rest) [] c.1 hmono' hcall
      (List.Pairwise.nil) (fun s hs => absurd hs (List.not_mem_nil s)) (Nat.zero_le 100)
    refine ⟨fun s1 hs1 s2 hs2 => ?_, hlen⟩
    have h1 := hbd s1 hs1
    have h2 := hbd s2 hs2
    linarith

/-- C3 witness: two ticks 60 s apart in a 900 s window keep both samples;
the pairwise gap bound and the capacity bound hold for both prefixes. -/
theorem update_price_window_invariant_witness :
    (ingestRun 900 [] ([((0 : ℚ), (100 : ℚ)), (60, 97)].take 2)).length ≤ 100 := by
  exact (update_price_window_invariant 900 [(0, 100), (60, 97)] 2
    (by with_unfolding_all decide)).2

/-! ## Price-change lemmas -/

theorem get_price_change_some_eq (h : Window) (hlen : ¬ h.length < 2) :
    ∀ a last, h.head? = some a → h.getLast? = some last →
      get_price_change (some h) =
        (if a.2 ≤ 0 then none else some ((last.2 - a.2) / a.2, a.2, last.2)) := by
  intro a last hhead hlast
  obtain ⟨ats, ap⟩ := a
  obtain ⟨lts, lp⟩ := last
  simp only [get_price_change]
  rw [if_neg hlen, hhead, hlast]

/-- C4: `get_price_change` returns `none` exactly when the window holds fewer
than two samples (a missing window included) or the oldest sample's price is
non-positive; otherwise it returns the triple of the relative change, the
oldest price and the newest price.  The operation is a pure read of the
window. -/
theorem get_price_change_spec :
    (get_price_change none = none) ∧
    (∀ hq : Option Window, get_price_change hq = none ↔
      windowLength hq < 2 ∨ oldestPrice (hq.getD []) ≤ 0) ∧
    (∀ h : Window, 2 ≤ h.length → 0 < oldestPrice h →
      get_price_change (some h) =
        some ((newestPrice h - oldestPrice h) / oldestPrice h,
          oldestPrice h, newestPrice h)) := by
  have hmain : ∀ h : Window, 2 ≤ h.length →
      get_price_change (some h) =
        (if oldestPrice h ≤ 0 then none
         else some ((newestPrice h - oldestPrice h) / oldestPrice h,
           oldestPrice h, newestPrice h)) := by
    intro h hlen
    have hne : h ≠ [] := by
      intro hnil
      rw [hnil] at hlen
      exact absurd hlen (by simp)
    obtain ⟨a, rest, rfl⟩ : ∃ a rest, h = a :: rest := by
      cases h with
      | nil => exact absurd rfl hne
      | cons a rest => exact ⟨a, rest, rfl⟩
    have hhead : (a :: rest).head? = some a := rfl
    have hlast : (a :: rest).getLast? = some ((a :: rest).getLast (by simp)) :=
      List.getLast?_eq_getLast _ _
    rw [get_price_change_some_eq (a :: rest) (by omega) a _ hhead hlast]
    have ho : oldestPrice (a :: rest) = a.2 := rfl
    have hn : newestPrice (a :: rest) = ((a :: rest).getLast (by simp)).2 := by
      rw [newestPrice, hlast]
      rfl
    rw [ho, hn]
  refine ⟨rfl, fun hq => ?_, fun h hlen hpos => ?_⟩
  · cases hq with
    | none =>
      simp [get_price_change, windowLength]
    | some h =>
      by_cases hlen : h.length < 2
      · simp only [get_price_change, if_pos hlen]
        constructor
        · intro _
          exact Or.inl hlen
        · intro _
          trivial
      · rw [hmain h (by omega)]
        constructor
        · intro hnone
          by_cases hle : oldestPrice h ≤ 0
          · exact Or.inr (by simpa [windowLength] using hle)
          · rw [if_neg hle] at hnone
            exact absurd hnone (by simp)
        · intro hor
          rcases hor with hlt | hle
          · exact absurd hlt (by simpa [windowLength] using hlen)
          · rw [if_pos (by simpa [windowLength] using hle)]
  · rw [hmain h hlen, if_neg (not_le.mpr hpos)]

/-- C4 witness: the window [(0, 100), (60, 97)] yields the change triple
(-3/100, 100, 97), and a single-sample window yields no result. -/
theorem get_price_change_spec_witness :
    get_price_change (some [((0 : ℚ), (100 : ℚ)), (60, 97)]) =
      some (((-3) / 100 : ℚ), (100 : ℚ), (97 : ℚ)) ∧
    get_price_change (some [((0 : ℚ), (100 : ℚ))]) = none := by
  constructor
  · have h := get_price_change_spec.2.2 [((0 : ℚ), (100 : ℚ)), (60, 97)]
      (by decide) (by with_unfolding_all decide)
    rw [h]
    with_unfolding_all decide
  · exact (get_price_change_spec.2.1 (some [((0 : ℚ), (100 : ℚ))])).mpr
      (Or.inl (by decide))

/-! ## Reference-data dedup lemmas -/

theorem entriesFor_cons (sym : String) (e : CgEntry) (rest : List CgEntry) :
    entriesFor sym (e :: rest) =
      (if e.1 = sym then [e.2] else []) ++ entriesFor sym rest := by
  unfold entriesFor
  by_cases he : e.1 = sym
  · rw [if_pos he]
    rw [List.filter_cons_of_pos (by simp [he]), List.map_cons]
    rfl
  · rw [if_neg he]
    rw [List.filter_cons_of_neg (by simp [he]), List.nil_append]

theorem cgStep_lookup_ne (c : List CgEntry) (e : CgEntry) (sym : String)
    (he : e.1 ≠ sym) : (cgStep c e).lookup sym = c.lookup sym := by
  unfold cgStep
  rcases hc : c.lookup e.1 with _ | old
  · exact lookup_cons_ne _ _ he
  · show List.lookup sym (if mcKey e.2.1 > mcKey old.1 then e :: c else c) =
      List.lookup sym c
    by_cases hgt : mcKey e.2.1 > mcKey old.1
    · rw [if_pos hgt]
      exact lookup_cons_ne _ _ he
    · rw [if_neg hgt]

theorem lookup_cons_pair (e : CgEntry) (c : List CgEntry) (sym : String)
    (he : e.1 = sym) : (e :: c).lookup sym = some e.2 := by
  obtain ⟨s, pay⟩ := e
  cases he
  exact lookup_cons_self _ _ _

theorem load_lookup (sym : String) :
    ∀ (entries : List CgEntry) (c : List CgEntry),
      (entries.foldl cgStep c).lookup sym =
        specPick (c.lookup sym) (entriesFor sym entries) := by
  intro entries
  induction entries with
  | nil =>
    intro c
    simp [entriesFor, specPick]
  | cons e rest ih =>
    intro c
    rw [List.foldl_cons, ih (cgStep c e), entriesFor_cons]
    by_cases he : e.1 = sym
    · rw [if_pos he]
      rcases hc : c.lookup sym with _ | old
      · have hstep : cgStep c e = e :: c := by
          unfold cgStep
          rw [he, hc]
        rw [hstep, lookup_cons_pair e c sym he]
        rfl
      · have hstep : cgStep c e =
            if mcKey e.2.1 > mcKey old.1 then e :: c else c := by
          unfold cgStep
          rw [he, hc]
        rw [hstep]
        by_cases hgt : mcKey e.2.1 > mcKey old.1
        · rw [if_pos hgt, lookup_cons_pair e c sym he]
          show specPick (some e.2) (entriesFor sym rest) =
            specPick (if mcKey e.2.1 > mcKey old.1 then some e.2 else some old)
              (entriesFor sym rest)
          rw [if_pos hgt]
        · rw [if_neg hgt, hc]
          show specPick (some old) (entriesFor sym rest) =
            specPick (if mcKey e.2.1 > mcKey old.1 then some e.2 else some old)
              (entriesFor sym rest)
          rw [if_neg hgt]
    · rw [if_neg he, cgStep_lookup_ne c e sym he, List.nil_append]

theorem specPick_first_max :
    ∀ (l : List (Option ℚ × Option ℚ)) (b v : Option ℚ × Option ℚ),
      specPick (some b) l = some v →
      (v = b ∧ ∀ u ∈ l, mcKey u.1 ≤ mcKey b.1) ∨
      (∃ l1 l2, l = l1 ++ v :: l2 ∧ mcKey b.1 < mcKey v.1 ∧
        (∀ u ∈ l1, mcKey u.1 < mcKey v.1) ∧ (∀ u ∈ l2, mcKey u.1 ≤ mcKey v.1)) := by
  intro l
  induction l with
  | nil =>
    intro b v hv
    have hbv : some b = some v := hv
    exact Or.inl ⟨(Option.some_injective _ hbv).symm, by simp⟩
  | cons u rest ih =>
    intro b v hv
    have hv' : specPick (if mcKey u.1 > mcKey b.1 then some u else some b) rest
        = some v := hv
    by_cases hgt : mcKey u.1 > mcKey b.1
    · rw [if_pos hgt] at hv'
      rcases ih u v hv' with ⟨rfl, hall⟩ | ⟨l1, l2, heq, hbv, hl1, hl2⟩
      · exact Or.inr ⟨[], rest, rfl, hgt, by simp, hall⟩
      · refine Or.inr ⟨u :: l1, l2, by rw [heq]; rfl, lt_trans hgt hbv, ?_, hl2⟩
        intro x hx
        rcases List.mem_cons.mp hx with rfl | hx'
        · exact hbv
        · exact hl1 x hx'
    · rw [if_neg hgt] at hv'
      rcases ih b v hv' with ⟨rfl, hall⟩ | ⟨l1, l2, heq, hbv, hl1, hl2⟩
      · refine Or.inl ⟨rfl, fun x hx => ?_⟩
        rcases List.mem_cons.mp hx with rfl | hx'
        · exact not_lt.mp hgt
        · exact hall x hx'
      · refine Or.inr ⟨u :: l1, l2, by rw [heq]; rfl, hbv, ?_, hl2⟩
        intro x hx
        rcases List.mem_cons.mp hx with rfl | hx'
        · exact lt_of_le_of_lt (not_lt.mp hgt) hbv
        · exact hl1 x hx'

/-- C6: after a reference-data refresh, each symbol's cache entry is the
first occurrence among its rows attaining the largest market cap (missing
caps counting as 0, as in the code's `(mc or 0)`): every earlier row has a
strictly smaller cap and no row has a larger one.  In particular
[("ETH", 300, 400), ("ETH", 250, 350)] yields (300, 400) for ETH. -/
theorem load_marketcaps_dedup :
    (∀ (entries : List CgEntry) (sym : String) (v : Option ℚ × Option ℚ),
      (load_marketcaps entries).lookup sym = some v →
      ∃ l1 l2, entriesFor sym entries = l1 ++ v :: l2 ∧
        (∀ u ∈ l1, mcKey u.1 < mcKey v.1) ∧
        (∀ u ∈ entriesFor sym entries, mcKey u.1 ≤ mcKey v.1)) ∧
    (load_marketcaps
      [("ETH", some 300, some 400), ("ETH", some 250, some 350)]).lookup "ETH"
      = some (some 300, some 400) := by
  constructor
  · intro entries sym v hv
    rw [load_marketcaps, load_lookup sym entries []] at hv
    rcases hl : entriesFor sym entries with _ | ⟨u, rest⟩
    · rw [hl] at hv
      exact Option.noConfusion hv
    · rw [hl] at hv
      have hv' : specPick (some u) rest = some v := hv
      rcases specPick_first_max rest u v hv' with ⟨rfl, hall⟩ | ⟨l1, l2, heq, hbv, hl1, hl2⟩
      · refine ⟨[], rest, rfl, by simp, fun x hx => ?_⟩
        rcases List.mem_cons.mp hx with rfl | hx'
        · exact le_refl _
        · exact hall x hx'
      · refine ⟨u :: l1, l2, by rw [heq]; rfl, ?_, fun x hx => ?_⟩
        · intro x hx
          rcases List.mem_cons.mp hx with rfl | hx'
          · exact hbv
          · exact hl1 x hx'
        · rcases List.mem_cons.mp hx with rfl | hx'
          · exact le_of_lt hbv
          · rw [heq] at hx'
            rcases List.mem_append.mp hx' with hm1 | hm2
            · exact le_of_lt (hl1 x hm1)
            · rcases List.mem_cons.mp hm2 with rfl | hm3
              · exact le_refl _
              · exact hl2 x hm3
  · with_unfolding_all decide

/-- C6 witness: applying the dedup theorem to the ETH example produces the
split around the winning (300, 400) row. -/
theorem load_marketcaps_dedup_witness :
    ∃ l1 l2,
      entriesFor "ETH" [("ETH", some 300, some 400), ("ETH", some 250, some 350)]
        = l1 ++ ((some 300, some 400) : Option ℚ × Option ℚ) :: l2 ∧
      (∀ u ∈ l1, mcKey u.1 < mcKey (some (300 : ℚ))) ∧
      (∀ u ∈ entriesFor "ETH"
          [("ETH", some 300, some 400), ("ETH", some 250, some 350)],
        mcKey u.1 ≤ mcKey (some (300 : ℚ))) :=
  load_marketcaps_dedup.1
    [("ETH", some 300, some 400), ("ETH", some 250, some 350)] "ETH"
    (some 300, some 400) load_marketcaps_dedup.2

/-! ## Open-interest retry lemmas -/

/-- C7: the OI lookup never propagates a failure (its result is always an
`ok` value), uses at most two attempts — exactly two when the first fails —
returns the explicit markers `("N/A", "N/A", none)` when both attempts fail,
and one symbol's failures leave the rest of the batch intact: the batch
always yields one non-error result per symbol. -/
theorem fetch_open_interest_stats_resilient
    (oracle : ℕ → Except Unit OIResult)
    (oracles : String → ℕ → Except Unit OIResult) (syms : List String) :
    (∃ v, (fetch_open_interest_stats oracle 0 1).1 = Except.ok v) ∧
    (fetch_open_interest_stats oracle 0 1).2 ≤ 2 ∧
    (oracle 0 = Except.error () → (fetch_open_interest_stats oracle 0 1).2 = 2) ∧
    (oracle 0 = Except.error () → oracle 1 = Except.error () →
      (fetch_open_interest_stats oracle 0 1).1 = Except.ok ("N/A", "N/A", none)) ∧
    (fetchOIBatch oracles syms).length = syms.length ∧
    (∀ r ∈ fetchOIBatch oracles syms, ∃ v, r = Except.ok v) := by
  have hok : ∀ (o : ℕ → Except Unit OIResult),
      ∃ v, (fetch_open_interest_stats o 0 1).1 = Except.ok v := by
    intro o
    have h1 : fetch_open_interest_stats o 0 1 =
        (match o 0 with
         | .ok v => (Except.ok v, 1)
         | .error _ =>
           ((fetch_open_interest_stats o 1 0).1,
            (fetch_open_interest_stats o 1 0).2 + 1)) := rfl
    have h0 : fetch_open_interest_stats o 1 0 =
        (match o 1 with
         | .ok v => (Except.ok v, 1)
         | .error _ => (Except.ok ("N/A", "N/A", none), 1)) := rfl
    rcases ho0 : o 0 with e | v
    · rcases ho1 : o 1 with e1 | v1
      · refine ⟨("N/A", "N/A", none), ?_⟩
        rw [h1, ho0, h0, ho1]
      · refine ⟨v1, ?_⟩
        rw [h1, ho0, h0, ho1]
    · refine ⟨v, ?_⟩
      rw [h1, ho0]
  have h1 : fetch_open_interest_stats oracle 0 1 =
      (match oracle 0 with
       | .ok v => (Except.ok v, 1)
       | .error _ =>
         ((fetch_open_interest_stats oracle 1 0).1,
          (fetch_open_interest_stats oracle 1 0).2 + 1)) := rfl
  have h0 : fetch_open_interest_stats oracle 1 0 =
      (match oracle 1 with
       | .ok v => (Except.ok v, 1)
       | .error _ => (Except.ok ("N/A", "N/A", none), 1)) := rfl
  refine ⟨hok oracle, ?_, ?_, ?_, ?_, ?_⟩
  · rcases ho0 : oracle 0 with e | v
    · rcases ho1 : oracle 1 with e1 | v1
      · rw [h1, ho0, h0, ho1]
      · rw [h1, ho0, h0, ho1]
    · rw [h1, ho0]
      exact Nat.le_succ 1
  · intro he0
    rcases ho1 : oracle 1 with e1 | v1
    · rw [h1, he0, h0, ho1]
    · rw [h1, he0, h0, ho1]
  · intro he0 he1
    rw [h1, he0, h0, he1]
  · rw [fetchOIBatch, List.length_map]
  · intro r hr
    rw [fetchOIBatch] at hr
    obtain ⟨s, _, rfl⟩ := List.mem_map.mp hr
    exact hok (oracles s)

/-- C7 witness: with every attempt failing, the lookup returns the
unavailable markers after exactly two attempts, and a two-symbol batch still
yields two results. -/
theorem fetch_open_interest_stats_resilient_witness :
    (fetch_open_interest_stats (fun _ => Except.error ()) 0 1).1 =
      Except.ok ("N/A", "N/A", none) ∧
    (fetch_open_interest_stats (fun _ => Except.error ()) 0 1).2 = 2 ∧
    (fetchOIBatch (fun _ _ => Except.error ()) ["BTCUSDT", "ETHUSDT"]).length = 2 := by
  have h := fetch_open_interest_stats_resilient (fun _ => Except.error ())
    (fun _ _ => Except.error ()) ["BTCUSDT", "ETHUSDT"]
  exact ⟨h.2.2.2.1 rfl rfl, h.2.2.1 rfl, h.2.2.2.2.1⟩

/-! ## OI / market-cap ratio lemmas -/

theorem append_pct_ne_na (s : String) : s ++ "%" ≠ "N/A" := by
  intro h
  have hd : (s ++ "%").data = "N/A".data := by rw [h]
  have hd' : s.data ++ ['%'] = ['N', '/', 'A'] := hd
  have hlast := congrArg List.getLast? hd'
  rw [List.getLast?_concat] at hlast
  have : '%' = 'A' := by
    have h2 : (['N', '/', 'A'] : List Char).getLast? = some 'A' := rfl
    rw [h2] at hlast
    exact Option.some_injective _ hlast
  exact absurd this (by decide)

theorem fmt2_ne_na (x : ℚ) : fmt2 x ≠ "N/A" := by
  rw [fmt2]
  exact append_pct_ne_na _

/-- C8 counterexample: an OI value of 0 is present, and the market cap 100 is
present and strictly positive, yet the field is `"N/A"`, because the code also
requires the OI value itself to be strictly positive. -/
theorem oi_mc_ratio_str_zero_oi_counterexample :
    oi_mc_ratio_str (some 0) (some 100) = "N/A" ∧
    (some (0 : ℚ)).isSome = true ∧ (some (100 : ℚ)).isSome = true ∧
    (0 : ℚ) < 100 := by
  refine ⟨?_, rfl, rfl, ?_⟩
  · with_unfolding_all decide
  · with_unfolding_all decide

/-- C8 (amended): the ratio field is the formatted percentage of
`oi_value / market_cap` exactly when both values are present and both are
strictly positive (not merely the market cap); in every other case it is
`"N/A"`. -/
theorem oi_mc_ratio_str_correct (oi mc : Option ℚ) :
    (oi_mc_ratio_str oi mc ≠ "N/A" ↔
      ∃ o m, oi = some o ∧ mc = some m ∧ 0 < o ∧ 0 < m) ∧
    (∀ o m, oi = some o → mc = some m → 0 < o → 0 < m →
      oi_mc_ratio_str oi mc = fmt2 (o / m * 100)) := by
  constructor
  · cases oi with
    | none =>
      simp [oi_mc_ratio_str]
    | some o =>
      cases mc with
      | none =>
        simp [oi_mc_ratio_str]
      | some m =>
        rw [oi_mc_ratio_str]
        by_cases hc : 0 < o ∧ 0 < m
        · rw [if_pos hc]
          constructor
          · intro _
            exact ⟨o, m, rfl, rfl, hc.1, hc.2⟩
          · intro _
            exact fmt2_ne_na _
        · rw [if_neg hc]
          constructor
          · intro hne
            exact absurd rfl hne
          · intro ⟨o', m', ho', hm', hpo, hpm⟩
            cases Option.some_injective _ ho'
            cases Option.some_injective _ hm'
            exact absurd ⟨hpo, hpm⟩ hc
  · intro o m ho hm hpo hpm
    cases ho
    cases hm
    rw [oi_mc_ratio_str, if_pos ⟨hpo, hpm⟩]

/-- C8 witness: OI 10 against market cap 400 renders as the percentage
`"2.50%"` through the formatter. -/
theorem oi_mc_ratio_str_correct_witness :
    oi_mc_ratio_str (some 10) (some 400) = fmt2 ((10 : ℚ) / 400 * 100) ∧
    fmt2 ((10 : ℚ) / 400 * 100) = "2.50%" := by
  constructor
  · exact (oi_mc_ratio_str_correct (some 10) (some 400)).2 10 400 rfl rfl
      (by with_unfolding_all decide) (by with_unfolding_all decide)
  · with_unfolding_all decide

/-- C10: `extract_base_asset` strips a trailing `_PERP`, then at most one
quote-currency suffix (first match in the order USDT, BUSD, FDUSD, USDC,
BTC, USD), and uppercases the remainder; an input equal to a quote currency
maps to the empty string, and only one quote suffix is ever stripped. -/
theorem extract_base_asset_spec :
    (∀ s, extract_base_asset s =
      strToUpper (stripQuoteSuffix (stripPerpSuffix s) quoteCurrencies)) ∧
    extract_base_asset "USDT" = "" ∧
    extract_base_asset "BTC" = "" ∧
    extract_base_asset "BTCUSDT" = "BTC" ∧
    extract_base_asset "ETHFDUSD" = "ETH" ∧
    extract_base_asset "BTCUSD_PERP" = "BTC" ∧
    extract_base_asset "XUSDTUSDT" = "XUSDT" := by
  refine ⟨fun s => rfl, ?_, ?_, ?_, ?_, ?_, ?_⟩ <;> decide

end Monitor
